import Mathlib

/-!
Shallow embedding of the caption parser `parse_caption` from `src/app.py`.

The Python function works on a Unicode string (a sequence of code points);
we model the working text as `List Char` and string offsets as `Nat` indices
into that list.  Each stage of the Python code is translated into a Lean
definition of the same name where possible:

* `re.sub(r'<br\s*/?>', '\n', ..., flags=IGNORECASE)`  → `subBr`
* `re.sub(r'<[^>]+>', '', ...)`                        → `subTags`
* the keyword tables                                   → `target_keywords`,
  `stop_keywords`, `all_keywords`
* `re.finditer(f"(?:^|\\s|■|】|\\|){kw}", text)`       → `occursOf`
* `positions.sort(key=lambda x: x["start"])` (stable)  → `sortPos`
* the per-field extraction loop                        → `extractField`,
  `windowEnd`, `cleanValue`, `cleanContent`
* the whole function                                   → `parse_caption`

`re.finditer` scans left to right and yields non-overlapping matches.  For
the patterns used here the matches can never overlap (no keyword contains a
boundary character), so the match set is exactly: a match at offset 0 when
the keyword is a prefix of the text (the `^` alternative), plus a match at
every index `i` holding a boundary character followed by the keyword.
-/

namespace Catalog

/-- The set of characters matched by Python's `\s` (and stripped by
`str.strip()`): Unicode whitespace. -/
def isPySpace (c : Char) : Bool :=
  c = ' ' || c = '\t' || c = '\n' || c = '\r' || c = '\x0b' || c = '\x0c' ||
  c = '\x1c' || c = '\x1d' || c = '\x1e' || c = '\x1f' || c = '\x85' || c = '\xa0' ||
  c = ' ' || c = ' ' || c = ' ' || c = ' ' || c = ' ' ||
  c = ' ' || c = ' ' || c = ' ' || c = ' ' || c = ' ' ||
  c = ' ' || c = ' ' || c = ' ' || c = ' ' || c = ' ' ||
  c = ' ' || c = '　'

/-- Tail of the `<br\s*/?>` pattern after the literal `<br`: greedy `\s*`,
an optional `/`, then `>`.  Returns the remainder of the text after the
match, or `none` when the pattern does not match here. -/
def brTail (l : List Char) : Option (List Char) :=
  match l.dropWhile isPySpace with
  | '>' :: r => some r
  | '/' :: '>' :: r => some r
  | _ => none

/-- A match of `<br\s*/?>` (case-insensitive) at the head of `l`; returns
the remainder after the match. -/
def matchBr (l : List Char) : Option (List Char) :=
  match l with
  | '<' :: b :: r :: rest =>
    if (b = 'b' ∨ b = 'B') ∧ (r = 'r' ∨ r = 'R') then brTail rest else none
  | _ => none

/-- The left-to-right scan of `re.sub(r'<br\s*/?>', '\n', ...)`.  The first
argument is fuel: every step consumes at least one character of the text, so
`l.length` fuel suffices and the fuel-exhausted branch is unreachable; fuel
recursion is used (rather than well-founded recursion) so that the function
reduces inside the kernel. -/
def subBrGo : Nat → List Char → List Char
  | 0, l => l
  | fuel + 1, l =>
    match l with
    | [] => []
    | c :: cs =>
      match matchBr (c :: cs) with
      | some rest => '\n' :: subBrGo fuel rest
      | none => c :: subBrGo fuel cs

/-- `re.sub(r'<br\s*/?>', '\n', text, flags=re.IGNORECASE)`: replace every
(non-overlapping, leftmost) match of the line-break tag with a newline. -/
def subBr (l : List Char) : List Char := subBrGo l.length l

/-- The left-to-right scan of `re.sub(r'<[^>]+>', '', ...)`; fuel recursion
exactly as in `subBrGo`. -/
def subTagsGo : Nat → List Char → List Char
  | 0, l => l
  | fuel + 1, l =>
    match l with
    | [] => []
    | c :: rest =>
      if c = '<' then
        match rest.dropWhile (fun x => x != '>') with
        | '>' :: r3 =>
          if rest.takeWhile (fun x => x != '>') = [] then c :: subTagsGo fuel rest
          else subTagsGo fuel r3
        | _ => c :: subTagsGo fuel rest
      else c :: subTagsGo fuel rest

/-- `re.sub(r'<[^>]+>', '', text)`: delete every (non-overlapping, leftmost)
angle-bracket span with a non-empty body that contains no `>`. -/
def subTags (l : List Char) : List Char := subTagsGo l.length l

/-- Stage 1 of `parse_caption`: line-break tags to newlines, then strip all
remaining markup tags. -/
def normalize (l : List Char) : List Char := subTags (subBr l)

/-- `target_keywords`: the four FieldKeys, in dict insertion order, each with
its alias list. -/
def target_keywords : List (String × List String) :=
  [("表記サイズ", ["表記サイズ", "サイズ表記"]),
   ("実寸サイズ", ["実寸サイズ", "実寸"]),
   ("状態ランク", ["状態ランク", "商品ランク"]),
   ("状態説明",   ["状態説明", "コンディション", "状態"])]

/-- `stop_keywords`: section boundaries that are never extracted. -/
def stop_keywords : List String :=
  ["素材", "色", "カラー", "付属品", "備考", "管理番号", "商品番号", "注意事項",
   "状態ランク注意事項"]

/-- `all_keywords`: every alias (in field order) followed by the stop
keywords, exactly as the Python code extends the list. -/
def all_keywords : List String :=
  (target_keywords.map Prod.snd).flatten ++ stop_keywords

/-- A keyword occurrence: `start`/`stop` are the match's start and end
offsets (`m.start()` / `m.end()`), `name` the matched keyword. -/
structure Pos where
  start : Nat
  stop : Nat
  name : String
deriving DecidableEq

/-- The characters accepted by the left-boundary alternative
`(?:^|\s|■|】|\|)` (other than `^`). -/
def isBoundary (c : Char) : Bool :=
  isPySpace c || c = '■' || c = '】' || c = '|'

/-- All matches of `(?:^|\s|■|】|\|){kw}` in `text`, in increasing start
order: a start-of-text match when `kw` is a prefix of `text`, plus a match
at every index holding a boundary character immediately followed by `kw`.
`m.start()` is the offset of the boundary character (or 0), `m.end()` the
offset just past the keyword. -/
def occursOf (kw : String) (text : List Char) : List Pos :=
  (if kw.data.isPrefixOf text then [⟨0, kw.data.length, kw⟩] else []) ++
  (List.range text.length).filterMap (fun i =>
    if isBoundary (text.getD i ' ') && kw.data.isPrefixOf (text.drop (i + 1)) then
      some ⟨i, i + 1 + kw.data.length, kw⟩
    else none)

/-- Stable insertion into a list sorted by `start` (insert before the first
strictly larger element, after equal ones seen... before equal-start
elements only when strictly smaller — matching Python's stable sort). -/
def insertPos (p : Pos) : List Pos → List Pos
  | [] => [p]
  | q :: qs => if p.start ≤ q.start then p :: q :: qs else q :: insertPos p qs

/-- Stable sort by `start`, modelling `positions.sort(key=lambda x: x["start"])`. -/
def sortPos : List Pos → List Pos
  | [] => []
  | p :: ps => insertPos p (sortPos ps)

/-- Stage 2 of `parse_caption`: collect every keyword's occurrences in
keyword order, then stably sort by start offset. -/
def positionsOf (text : List Char) : List Pos :=
  sortPos ((all_keywords.map (fun kw => occursOf kw text)).flatten)

/-- Python `str.strip()`: drop leading and trailing whitespace. -/
def stripChars (l : List Char) : List Char :=
  ((l.dropWhile isPySpace).reverse.dropWhile isPySpace).reverse

/-- The class `[:：\]】]` of `re.sub(r'^[:：\]】]+', '', ...)`. -/
def isLeadDeco (c : Char) : Bool :=
  c = ':' || c = '：' || c = ']' || c = '】'

/-- The class `[\[【]` of `re.sub(r'[\[【]+$', '', ...)`. -/
def isTrailDeco (c : Char) : Bool :=
  c = '[' || c = '【'

/-- Stage 4 cleanup applied to a window's raw content: strip whitespace,
drop the leading run of colon/closing-bracket characters, strip, drop the
trailing run of opening-bracket characters, strip, then remove every
double-quote character. -/
def cleanContent (w : List Char) : List Char :=
  let c1 := stripChars w
  let c2 := stripChars (c1.dropWhile isLeadDeco)
  let c3 := stripChars (c2.reverse.dropWhile isTrailDeco).reverse
  c3.filter (fun c => c != '"')

/-- A cleaned result is empty or one of the degenerate bracket-pair strings
(`not content or content in ["【】", "[]", "()"]`). -/
def isDegenerate (cl : List Char) : Prop :=
  cl = [] ∨ cl = "【】".data ∨ cl = "[]".data ∨ cl = "()".data

instance (cl : List Char) : Decidable (isDegenerate cl) := by
  unfold isDegenerate; infer_instance

/-- The occurrence list with every occurrence of the field's own aliases
that starts strictly after the field's heading occurrence removed.  This is
not part of the parser; it expresses the reading that later occurrences of
the same field's aliases "have no effect on that field's result", to be
compared against `extractField` on the full list. -/
def dropLaterFieldAliases (ps : List Pos) (al : List String) : List Pos :=
  match ps.find? (fun p => al.contains p.name) with
  | none => ps
  | some h => ps.filter (fun q => !(al.contains q.name && decide (h.start < q.start)))

/-- The `end_index` computation: the start offset of the first position in
the (sorted) list whose start strictly exceeds `i`, defaulting to `n`
(`len(text)`). -/
def windowEnd (ps : List Pos) (i n : Nat) : Nat :=
  match ps.find? (fun q => decide (i < q.start)) with
  | some q => q.start
  | none => n

/-- Clean the window `text[i:e]` and apply the sentinel rule: an empty or
degenerate-pair result becomes `"-"`. -/
def cleanValue (text : List Char) (i e : Nat) : String :=
  let content := (text.drop i).take (e - i)
  let cleaned := cleanContent content
  if isDegenerate cleaned then "-" else String.mk cleaned

/-- Stage 3 for one field: find the first position (in sorted order) whose
keyword is one of the field's aliases; if none, the sentinel, otherwise the
cleaned window starting at the heading's end offset. -/
def extractField (text : List Char) (positions : List Pos) (aliases : List String) :
    String :=
  match positions.find? (fun p => aliases.contains p.name) with
  | none => "-"
  | some p => cleanValue text p.stop (windowEnd positions p.stop text.length)

/-- The per-field loop: one entry per FieldKey, in `target_keywords` order. -/
def parseBody (text : List Char) : List (String × String) :=
  let positions := positionsOf text
  target_keywords.map (fun kv => (kv.1, extractField text positions kv.2))

/-- `parse_caption`: the whole parser.  `None` and `""` are the falsy inputs
of the Python guard `if not caption: return {}`; the result models the
insertion-ordered Python dict as an association list. -/
def parse_caption (caption : Option String) : List (String × String) :=
  match caption with
  | none => []
  | some s => if s = "" then [] else parseBody (normalize s.data)

/-! ### Helper lemmas -/

theorem mem_insertPos (x p : Pos) (l : List Pos) :
    x ∈ insertPos p l ↔ x = p ∨ x ∈ l := by
  induction l with
  | nil => simp [insertPos]
  | cons q qs ih =>
    unfold insertPos
    by_cases hle : p.start ≤ q.start
    · rw [if_pos hle]
      simp only [List.mem_cons]
    · rw [if_neg hle]
      simp only [List.mem_cons, ih]
      tauto

theorem mem_sortPos (x : Pos) (l : List Pos) : x ∈ sortPos l ↔ x ∈ l := by
  induction l with
  | nil => simp [sortPos]
  | cons p ps ih =>
    unfold sortPos
    rw [mem_insertPos]
    simp only [List.mem_cons, ih]

theorem pairwise_insertPos {p : Pos} {l : List Pos}
    (h : l.Pairwise (fun a b => a.start ≤ b.start)) :
    (insertPos p l).Pairwise (fun a b => a.start ≤ b.start) := by
  induction l with
  | nil => simp [insertPos]
  | cons q qs ih =>
    rcases List.pairwise_cons.mp h with ⟨hq, hqs⟩
    unfold insertPos
    by_cases hle : p.start ≤ q.start
    · rw [if_pos hle]
      refine List.pairwise_cons.mpr ⟨?_, h⟩
      intro x hx
      rcases List.mem_cons.mp hx with rfl | hx
      · exact hle
      · exact Nat.le_trans hle (hq x hx)
    · rw [if_neg hle]
      refine List.pairwise_cons.mpr ⟨?_, ih hqs⟩
      intro x hx
      rcases (mem_insertPos x p qs).mp hx with rfl | hx
      · exact Nat.le_of_lt (Nat.lt_of_not_le hle)
      · exact hq x hx

theorem pairwise_sortPos (l : List Pos) :
    (sortPos l).Pairwise (fun a b => a.start ≤ b.start) := by
  induction l with
  | nil => simp [sortPos]
  | cons p ps ih => exact pairwise_insertPos ih

theorem pairwise_positionsOf (t : List Char) :
    (positionsOf t).Pairwise (fun a b => a.start ≤ b.start) :=
  pairwise_sortPos _

/-- In a list sorted by `start`, `find?` returns an element of minimal
`start` among those satisfying the predicate. -/
theorem find?_min_start (f : Pos → Bool) (ps : List Pos)
    (hps : ps.Pairwise (fun a b => a.start ≤ b.start)) (q : Pos)
    (hq : ps.find? f = some q) :
    ∀ r ∈ ps, f r = true → q.start ≤ r.start := by
  induction ps with
  | nil => simp at hq
  | cons p l ih =>
    rcases List.pairwise_cons.mp hps with ⟨hhead, htail⟩
    by_cases hp : f p = true
    · rw [List.find?_cons_of_pos _ hp] at hq
      cases hq
      intro r hr _
      rcases List.mem_cons.mp hr with rfl | hr
      · exact Nat.le_refl _
      · exact hhead r hr
    · rw [List.find?_cons_of_neg _ (by simpa using hp)] at hq
      intro r hr hfr
      rcases List.mem_cons.mp hr with rfl | hr
      · exact absurd hfr hp
      · exact ih htail hq r hr hfr

theorem isPrefixOf_trans {a b c : List Char}
    (h1 : a.isPrefixOf b = true) (h2 : b.isPrefixOf c = true) :
    a.isPrefixOf c = true := by
  induction a generalizing b c with
  | nil => simp [List.isPrefixOf]
  | cons x xs ih =>
    cases b with
    | nil => simp [List.isPrefixOf] at h1
    | cons y ys =>
      cases c with
      | nil => simp [List.isPrefixOf] at h2
      | cons z zs =>
        simp only [List.isPrefixOf, Bool.and_eq_true, beq_iff_eq] at h1 h2 ⊢
        exact ⟨h1.1.trans h2.1, ih h1.2 h2.2⟩

theorem mem_occursOf (kw : String) (t : List Char) (p : Pos) :
    p ∈ occursOf kw t ↔
      (p = ⟨0, kw.data.length, kw⟩ ∧ kw.data.isPrefixOf t = true) ∨
      (∃ i, i < t.length ∧ isBoundary (t.getD i ' ') = true ∧
        kw.data.isPrefixOf (t.drop (i + 1)) = true ∧
        p = ⟨i, i + 1 + kw.data.length, kw⟩) := by
  unfold occursOf
  simp only [List.mem_append, List.mem_filterMap, List.mem_range]
  constructor
  · rintro (h | ⟨i, hi, hf⟩)
    · left
      by_cases hpre : kw.data.isPrefixOf t = true
      · rw [if_pos hpre] at h
        simp only [List.mem_singleton] at h
        exact ⟨h, hpre⟩
      · rw [if_neg hpre] at h
        simp at h
    · right
      split at hf
      next hcond =>
        rw [Bool.and_eq_true] at hcond
        refine ⟨i, hi, hcond.1, hcond.2, ?_⟩
        exact (Option.some.inj hf).symm
      next => simp at hf
  · rintro (⟨rfl, hpre⟩ | ⟨i, hi, hb, hpre, rfl⟩)
    · left
      rw [if_pos hpre]
      simp
    · right
      refine ⟨i, hi, ?_⟩
      rw [if_pos (by rw [hb, hpre]; rfl)]

theorem name_of_mem_occursOf {kw : String} {t : List Char} {p : Pos}
    (h : p ∈ occursOf kw t) : p.name = kw := by
  rcases (mem_occursOf kw t p).mp h with ⟨rfl, -⟩ | ⟨i, -, -, -, rfl⟩ <;> rfl

theorem mem_positionsOf (t : List Char) (p : Pos) :
    p ∈ positionsOf t ↔ ∃ kw ∈ all_keywords, p ∈ occursOf kw t := by
  unfold positionsOf
  rw [mem_sortPos]
  simp only [List.mem_flatten, List.mem_map]
  constructor
  · rintro ⟨l, ⟨kw, hkw, rfl⟩, hp⟩
    exact ⟨kw, hkw, hp⟩
  · rintro ⟨kw, hkw, hp⟩
    exact ⟨occursOf kw t, ⟨kw, hkw, rfl⟩, hp⟩

theorem parse_caption_some {s : String} (h : s ≠ "") :
    parse_caption (some s) = parseBody (normalize s.data) := by
  simp [parse_caption, h]

theorem positionsOf_norm_empty : positionsOf (normalize ("" : String).data) = [] := by
  decide

theorem extractField_mem_parseBody (text : List Char) {k : String} {al : List String}
    (hk : (k, al) ∈ target_keywords) :
    (k, extractField text (positionsOf text) al) ∈ parseBody text := by
  simp only [parseBody]
  exact List.mem_map.mpr ⟨(k, al), hk, rfl⟩

theorem not_quote_mem_cleanContent (w : List Char) : '"' ∉ cleanContent w := by
  unfold cleanContent
  intro h
  simp [List.mem_filter] at h

/-- A cleaned window value is either the sentinel or a non-degenerate
cleaned string built by `String.mk` from `cleanContent`. -/
theorem cleanValue_shape (text : List Char) (i e : Nat) :
    cleanValue text i e = "-" ∨
      ((cleanValue text i e).data ≠ [] ∧
        '"' ∉ (cleanValue text i e).data ∧
        cleanValue text i e ≠ "【】" ∧
        cleanValue text i e ≠ "[]" ∧
        cleanValue text i e ≠ "()") := by
  have hq : '"' ∉ cleanContent ((text.drop i).take (e - i)) :=
    not_quote_mem_cleanContent _
  have heq : cleanValue text i e =
      if isDegenerate (cleanContent ((text.drop i).take (e - i))) then "-"
      else String.mk (cleanContent ((text.drop i).take (e - i))) := rfl
  revert hq heq
  generalize cleanContent ((text.drop i).take (e - i)) = X
  intro hq heq
  rw [heq]
  by_cases hdeg : isDegenerate X
  · rw [if_pos hdeg]
    exact Or.inl rfl
  · rw [if_neg hdeg]
    unfold isDegenerate at hdeg
    push_neg at hdeg
    refine Or.inr ⟨hdeg.1, hq, ?_, ?_, ?_⟩
    · intro h
      exact hdeg.2.1 (congrArg String.data h)
    · intro h
      exact hdeg.2.2.1 (congrArg String.data h)
    · intro h
      exact hdeg.2.2.2 (congrArg String.data h)

/-- Every field value is either the sentinel or a non-degenerate cleaned
string produced by `String.mk` from `cleanContent`. -/
theorem extractField_shape (text : List Char) (ps : List Pos) (al : List String) :
    extractField text ps al = "-" ∨
      ((extractField text ps al).data ≠ [] ∧
        '"' ∉ (extractField text ps al).data ∧
        extractField text ps al ≠ "【】" ∧
        extractField text ps al ≠ "[]" ∧
        extractField text ps al ≠ "()") := by
  cases hf : ps.find? (fun p => al.contains p.name) with
  | none =>
    left
    unfold extractField
    rw [hf]
  | some p =>
    have he : extractField text ps al =
        cleanValue text p.stop (windowEnd ps p.stop text.length) := by
      unfold extractField
      rw [hf]
    rw [he]
    exact cleanValue_shape _ _ _

/-- Every entry of `parse_caption` is a field key paired with the
`extractField` value for that field's aliases. -/
theorem mem_parse_caption {c : Option String} {kv : String × String}
    (h : kv ∈ parse_caption c) :
    ∃ s : String, s ≠ "" ∧ c = some s ∧
      ∃ al, (kv.1, al) ∈ target_keywords ∧
        kv.2 = extractField (normalize s.data) (positionsOf (normalize s.data)) al := by
  match c with
  | none => simp [parse_caption] at h
  | some s =>
    by_cases hs : s = ""
    · subst hs
      simp [parse_caption] at h
    · rw [parse_caption_some hs] at h
      simp only [parseBody, List.mem_map] at h
      obtain ⟨⟨k, al⟩, hk, rfl⟩ := h
      exact ⟨s, hs, rfl, al, hk, rfl⟩

/-- A string whose heading `find?` succeeds cannot be empty. -/
theorem ne_empty_of_find?_heading {s : String} {al : List String} {p : Pos}
    (hp : (positionsOf (normalize s.data)).find? (fun q => al.contains q.name) = some p) :
    s ≠ "" := by
  rintro rfl
  rw [positionsOf_norm_empty] at hp
  simp at hp

/-! ### Claim theorems -/

/-- C1 (totality): `parse_caption` is a total function of its input — every
operation of the source (regex substitution, scanning, slicing, stripping)
is embedded as a total computable function, so every string input produces a
result, and every field of that result is either the absent sentinel or a
non-empty cleaned string; no error is ever raised. -/
theorem parse_caption_total (c : Option String) :
    ∃ r, parse_caption c = r ∧ ∀ kv ∈ r, kv.2 = "-" ∨ kv.2 ≠ "" := by
  refine ⟨parse_caption c, rfl, ?_⟩
  intro kv hkv
  obtain ⟨s, hs, hc, al, hk, hv⟩ := mem_parse_caption hkv
  rcases extractField_shape (normalize s.data) (positionsOf (normalize s.data)) al
    with h | h
  · left
    rw [hv]
    exact h
  · right
    rw [hv]
    intro he
    exact h.1 (congrArg String.data he)

/-- Witness for C1 at the concrete input `"x"`. -/
theorem parse_caption_total_witness :
    ∃ r, parse_caption (some "x") = r ∧ ∀ kv ∈ r, kv.2 = "-" ∨ kv.2 ≠ "" :=
  parse_caption_total (some "x")

/-- C2 (window-end rule): whenever a field's heading is located at `p`, the
field's entry in the result is the cleaned window starting at `p.stop` (the
heading occurrence's end offset) and ending at `windowEnd`, which is the
start offset of the first occurrence in the sorted list (of any alias or
stop keyword of any field) whose start strictly exceeds the window start,
or end-of-text if no such occurrence exists. -/
theorem window_end_rule (s : String) (k : String) (al : List String)
    (hk : (k, al) ∈ target_keywords) (p : Pos)
    (hp : (positionsOf (normalize s.data)).find?
      (fun q => al.contains q.name) = some p) :
    ((windowEnd (positionsOf (normalize s.data)) p.stop (normalize s.data).length =
        (normalize s.data).length ∧
      ∀ q ∈ positionsOf (normalize s.data), q.start ≤ p.stop) ∨
     (∃ q ∈ positionsOf (normalize s.data), p.stop < q.start ∧
        windowEnd (positionsOf (normalize s.data)) p.stop
          (normalize s.data).length = q.start ∧
        ∀ r ∈ positionsOf (normalize s.data), p.stop < r.start → q.start ≤ r.start)) ∧
    (k, cleanValue (normalize s.data) p.stop
        (windowEnd (positionsOf (normalize s.data)) p.stop
          (normalize s.data).length)) ∈
      parse_caption (some s) := by
  have hs : s ≠ "" := ne_empty_of_find?_heading hp
  constructor
  · cases hw : (positionsOf (normalize s.data)).find?
        (fun q => decide (p.stop < q.start)) with
    | none =>
      left
      constructor
      · unfold windowEnd
        rw [hw]
      · intro q hq
        have hnot := List.find?_eq_none.mp hw q hq
        exact Nat.le_of_not_lt (by simpa using hnot)
    | some q =>
      right
      refine ⟨q, List.mem_of_find?_eq_some hw, by simpa using List.find?_some hw,
        ?_, ?_⟩
      · unfold windowEnd
        rw [hw]
      · intro r hr hlt
        exact find?_min_start _ _ (pairwise_positionsOf _) q hw r hr
          (by simpa using hlt)
  · have he : extractField (normalize s.data) (positionsOf (normalize s.data)) al =
        cleanValue (normalize s.data) p.stop
          (windowEnd (positionsOf (normalize s.data)) p.stop
            (normalize s.data).length) := by
      unfold extractField
      rw [hp]
    rw [parse_caption_some hs, ← he]
    exact extractField_mem_parseBody _ hk

/-- Witness for C2: the `実寸サイズ` heading of
`"実寸サイズ：着丈70 素材：コットン"` is at occurrence `⟨0, 5, 実寸サイズ⟩`. -/
theorem window_end_rule_witness :
    ((windowEnd (positionsOf (normalize ("実寸サイズ：着丈70 素材：コットン" : String).data)) 5
        (normalize ("実寸サイズ：着丈70 素材：コットン" : String).data).length =
        (normalize ("実寸サイズ：着丈70 素材：コットン" : String).data).length ∧
      ∀ q ∈ positionsOf (normalize ("実寸サイズ：着丈70 素材：コットン" : String).data),
        q.start ≤ 5) ∨
     (∃ q ∈ positionsOf (normalize ("実寸サイズ：着丈70 素材：コットン" : String).data),
        5 < q.start ∧
        windowEnd (positionsOf (normalize ("実寸サイズ：着丈70 素材：コットン" : String).data)) 5
          (normalize ("実寸サイズ：着丈70 素材：コットン" : String).data).length = q.start ∧
        ∀ r ∈ positionsOf (normalize ("実寸サイズ：着丈70 素材：コットン" : String).data),
          5 < r.start → q.start ≤ r.start)) ∧
    ("実寸サイズ", cleanValue (normalize ("実寸サイズ：着丈70 素材：コットン" : String).data) 5
        (windowEnd (positionsOf (normalize ("実寸サイズ：着丈70 素材：コットン" : String).data)) 5
          (normalize ("実寸サイズ：着丈70 素材：コットン" : String).data).length)) ∈
      parse_caption (some "実寸サイズ：着丈70 素材：コットン") :=
  window_end_rule "実寸サイズ：着丈70 素材：コットン" "実寸サイズ" ["実寸サイズ", "実寸"]
    (by decide) ⟨0, 5, "実寸サイズ"⟩ (by decide)

/-- C3 counterexample: a later occurrence of an alias of the same field does
affect the field's result — in `"実寸サイズ A 実寸 B"` the later `実寸`
occurrence bounds the `実寸サイズ` window, giving `"A"`, while with the
later same-field occurrences removed the field would extract `"A 実寸 B"`.
So "any later occurrence of an alias of the same field has no effect on
that field's result" is false as stated. -/
theorem first_occurrence_no_effect_cex :
    extractField (normalize ("実寸サイズ A 実寸 B" : String).data)
        (positionsOf (normalize ("実寸サイズ A 実寸 B" : String).data))
        ["実寸サイズ", "実寸"] = "A" ∧
    extractField (normalize ("実寸サイズ A 実寸 B" : String).data)
        (dropLaterFieldAliases
          (positionsOf (normalize ("実寸サイズ A 実寸 B" : String).data))
          ["実寸サイズ", "実寸"])
        ["実寸サイズ", "実寸"] = "A 実寸 B" ∧
    ("A" : String) ≠ "A 実寸 B" := by
  decide

/-- C3 as amended (first-occurrence rule): the occurrence used as a field's
heading is one of minimal start offset among all occurrences of the field's
aliases — later occurrences of the same field's aliases are never selected
as the heading (though they can still bound the extraction window, like any
other occurrence). -/
theorem first_occurrence_rule (s : String) (k : String) (al : List String)
    (hk : (k, al) ∈ target_keywords) (p : Pos)
    (hp : (positionsOf (normalize s.data)).find?
      (fun q => al.contains q.name) = some p) :
    p ∈ positionsOf (normalize s.data) ∧ al.contains p.name = true ∧
    (∀ q ∈ positionsOf (normalize s.data), al.contains q.name = true →
      p.start ≤ q.start) ∧
    (k, extractField (normalize s.data) (positionsOf (normalize s.data)) al) ∈
      parse_caption (some s) := by
  have hs : s ≠ "" := ne_empty_of_find?_heading hp
  refine ⟨List.mem_of_find?_eq_some hp, by simpa using List.find?_some hp, ?_, ?_⟩
  · intro q hq hql
    exact find?_min_start _ _ (pairwise_positionsOf _) p hp q hq hql
  · rw [parse_caption_some hs]
    exact extractField_mem_parseBody _ hk

/-- Witness for the amended C3 at `"実寸サイズ A 実寸 B"`. -/
theorem first_occurrence_rule_witness :
    (⟨0, 5, "実寸サイズ"⟩ : Pos) ∈
      positionsOf (normalize ("実寸サイズ A 実寸 B" : String).data) ∧
    (["実寸サイズ", "実寸"] : List String).contains "実寸サイズ" = true ∧
    (∀ q ∈ positionsOf (normalize ("実寸サイズ A 実寸 B" : String).data),
      (["実寸サイズ", "実寸"] : List String).contains q.name = true → 0 ≤ q.start) ∧
    ("実寸サイズ", extractField (normalize ("実寸サイズ A 実寸 B" : String).data)
        (positionsOf (normalize ("実寸サイズ A 実寸 B" : String).data))
        ["実寸サイズ", "実寸"]) ∈
      parse_caption (some "実寸サイズ A 実寸 B") :=
  first_occurrence_rule "実寸サイズ A 実寸 B" "実寸サイズ" ["実寸サイズ", "実寸"]
    (by decide) ⟨0, 5, "実寸サイズ"⟩ (by decide)

/-- C4 (empty-input asymmetry): absent and empty inputs produce the empty
mapping, while every non-empty input produces a non-empty mapping (all four
field keys, each possibly bound to the sentinel). -/
theorem empty_input_asymmetry :
    parse_caption none = [] ∧ parse_caption (some "") = [] ∧
      ∀ s : String, s ≠ "" → parse_caption (some s) ≠ [] := by
  refine ⟨rfl, rfl, ?_⟩
  intro s hs h
  rw [parse_caption_some hs] at h
  simp [parseBody, target_keywords] at h

/-- Witness for C4 at the concrete non-empty input `"x"`. -/
theorem empty_input_asymmetry_witness : parse_caption (some "x") ≠ [] :=
  empty_input_asymmetry.2.2 "x" (by decide)

/-- C5 (total mapping): for every non-empty input, the result has exactly
the four field keys, in order, and no others. -/
theorem total_mapping (s : String) (h : s ≠ "") :
    (parse_caption (some s)).map Prod.fst =
      ["表記サイズ", "実寸サイズ", "状態ランク", "状態説明"] := by
  rw [parse_caption_some h]
  simp [parseBody, target_keywords]

/-- Witness for C5 at the concrete input `"x"`. -/
theorem total_mapping_witness :
    (parse_caption (some "x")).map Prod.fst =
      ["表記サイズ", "実寸サイズ", "状態ランク", "状態説明"] :=
  total_mapping "x" (by decide)

/-- C6 (cleanup invariant): every value in the result is either the
sentinel `"-"` or a non-empty cleaned string containing no double quote
and different from each degenerate pair string. -/
theorem cleanup_invariant (c : Option String) :
    ∀ kv ∈ parse_caption c, kv.2 = "-" ∨
      (kv.2 ≠ "" ∧ '"' ∉ kv.2.data ∧ kv.2 ≠ "【】" ∧ kv.2 ≠ "[]" ∧ kv.2 ≠ "()") := by
  intro kv hkv
  obtain ⟨s, hs, hc, al, hk, hv⟩ := mem_parse_caption hkv
  rcases extractField_shape (normalize s.data) (positionsOf (normalize s.data)) al
    with h | h
  · left
    rw [hv]
    exact h
  · right
    rw [hv]
    refine ⟨?_, h.2.1, h.2.2.1, h.2.2.2.1, h.2.2.2.2⟩
    intro he
    exact h.1 (congrArg String.data he)

/-- Witness for C6 at the entry `("状態ランク", "【A】")` of the parse of
`"状態ランク【A】"`. -/
theorem cleanup_invariant_witness :
    ("状態ランク", ("【A】" : String)).2 = "-" ∨
      (("状態ランク", ("【A】" : String)).2 ≠ "" ∧
        '"' ∉ ("状態ランク", ("【A】" : String)).2.data ∧
        ("状態ランク", ("【A】" : String)).2 ≠ "【】" ∧
        ("状態ランク", ("【A】" : String)).2 ≠ "[]" ∧
        ("状態ランク", ("【A】" : String)).2 ≠ "()") :=
  cleanup_invariant (some "状態ランク【A】") ("状態ランク", "【A】") (by decide)

/-- C7 counterexample: for `"状態ランク【A】"` the `状態ランク` value is
neither `"A"` nor the sentinel — the leading strip removes only colons and
closing brackets and the trailing strip removes only opening brackets, so
the abutting pair `【A】` survives cleanup intact. -/
theorem bracket_abutting_cex :
    ¬((parse_caption (some "状態ランク【A】")).lookup "状態ランク" = some "A" ∨
      (parse_caption (some "状態ランク【A】")).lookup "状態ランク" = some "-") := by
  decide

/-- C7 as amended: for `"状態ランク【A】"` the `状態ランク` value is
`"【A】"` — the bracket pair with its content is preserved, and being
non-empty and not a degenerate pair it is not replaced by the sentinel. -/
theorem bracket_abutting_value :
    (parse_caption (some "状態ランク【A】")).lookup "状態ランク" = some "【A】" := by
  decide

/-- C8: for `"実寸サイズ：着丈70 素材：コットン"` the `実寸サイズ` value is
`"着丈70"` — extraction stops at the stop keyword `素材` and the leading
full-width colon is stripped. -/
theorem measured_size_example :
    (parse_caption (some "実寸サイズ：着丈70 素材：コットン")).lookup "実寸サイズ" =
      some "着丈70" := by
  decide

/-- C9: a non-empty input in which no alias or stop keyword occurrence is
located yields the sentinel for all four fields. -/
theorem no_keyword_sentinel (s : String) (h1 : s ≠ "")
    (h2 : positionsOf (normalize s.data) = []) :
    parse_caption (some s) =
      [("表記サイズ", "-"), ("実寸サイズ", "-"), ("状態ランク", "-"), ("状態説明", "-")] := by
  rw [parse_caption_some h1]
  simp [parseBody, h2, extractField, target_keywords]

/-- Witness for C9 at the concrete input `"x"`, which contains no keyword. -/
theorem no_keyword_sentinel_witness :
    parse_caption (some "x") =
      [("表記サイズ", "-"), ("実寸サイズ", "-"), ("状態ランク", "-"), ("状態説明", "-")] :=
  no_keyword_sentinel "x" (by decide) (by decide)

/-- C10 (alias-prefix overlap): `状態` is a configured alias of `状態説明`
and a prefix of `状態ランク`, so every located occurrence of `状態ランク`
registers a `状態` occurrence at the same start offset; in particular for
`"状態ランク【A】"` the `状態説明` value is the non-sentinel string
`"ランク【A】"`. -/
theorem rank_heading_registers_description :
    (∀ (s : String) (p : Pos), p ∈ positionsOf (normalize s.data) →
      p.name = "状態ランク" →
      ∃ q, q ∈ positionsOf (normalize s.data) ∧ q.name = "状態" ∧
        q.start = p.start) ∧
    (parse_caption (some "状態ランク【A】")).lookup "状態説明" = some "ランク【A】" := by
  constructor
  · intro s p hp hname
    rcases (mem_positionsOf _ p).mp hp with ⟨kw, hkw, hpo⟩
    have hnm : p.name = kw := name_of_mem_occursOf hpo
    have hkweq : kw = "状態ランク" := by
      rw [← hnm]
      exact hname
    subst hkweq
    have hpre0 : ("状態" : String).data.isPrefixOf ("状態ランク" : String).data = true := by
      decide
    have hmem : ("状態" : String) ∈ all_keywords := by decide
    rcases (mem_occursOf _ _ _).mp hpo with ⟨rfl, hpre⟩ | ⟨i, hi, hb, hpre, rfl⟩
    · refine ⟨⟨0, ("状態" : String).data.length, "状態"⟩, ?_, rfl, rfl⟩
      exact (mem_positionsOf _ _).mpr ⟨"状態", hmem,
        (mem_occursOf _ _ _).mpr (Or.inl ⟨rfl, isPrefixOf_trans hpre0 hpre⟩)⟩
    · refine ⟨⟨i, i + 1 + ("状態" : String).data.length, "状態"⟩, ?_, rfl, rfl⟩
      exact (mem_positionsOf _ _).mpr ⟨"状態", hmem,
        (mem_occursOf _ _ _).mpr (Or.inr ⟨i, hi, hb, isPrefixOf_trans hpre0 hpre, rfl⟩)⟩
  · decide

/-- Witness for C10 at the `状態ランク` occurrence of `"状態ランク【A】"`. -/
theorem rank_heading_registers_description_witness :
    ∃ q, q ∈ positionsOf (normalize ("状態ランク【A】" : String).data) ∧
      q.name = "状態" ∧ q.start = 0 :=
  rank_heading_registers_description.1 "状態ランク【A】" ⟨0, 5, "状態ランク"⟩
    (by decide) rfl

end Catalog
